import Mathlib

/-! steamcmd-go, the session I/O layer.

A shallow embedding of `session_io.go`: the scanner split function `splitFunc`,
the scanner loop that `copyLinesToChan` runs over it, and the request/response
protocol `WaitForSuffix` / `WaitForPrompt` / `Exec` of `SessionIO`.

Go strings and byte slices are lists of byte values; Go `int` results are `Int`
(`strings.Index` answers `-1` for "absent"); a `nil` slice, pointer or error is
`none`.
-/

namespace Steamcmd

/-- One byte of a Go string or byte slice, as its numeric value. -/
abbrev Byte := Nat

/-- Go `string` (and `[]byte`): a sequence of bytes. -/
abbrev GoString := List Byte

/-- Go `error`, represented by its message text. -/
abbrev GoError := GoString

/-- The newline byte, the Go literal "\n". -/
def newline : Byte := 10

/-- The constant `prompt`: ESC `[1m`, newline, `Steam>`, ESC `[0m`. -/
def prompt : GoString :=
  [27, 91, 49, 109, 10, 83, 116, 101, 97, 109, 62, 27, 91, 48, 109]

/-- Position of the first place at which `substr` starts in `s`, if any. -/
def indexOf? (substr : GoString) : GoString → Option Nat
  | [] => if substr.isPrefixOf [] then some 0 else none
  | c :: cs =>
    if substr.isPrefixOf (c :: cs) then some 0
    else (indexOf? substr cs).map (· + 1)

/-- Go `strings.Index`: index of the first instance of `substr` in `s`, or `-1`. -/
def Index (s substr : GoString) : Int :=
  match indexOf? substr s with
  | some i => (i : Int)
  | none => -1

/-- Go slice expression `s[:n]`; `none` is the run-time panic for a bound out of range. -/
def sliceTo (s : GoString) (n : Int) : Option GoString :=
  if 0 ≤ n ∧ n ≤ (s.length : Int) then some (s.take n.toNat) else none

/-- The three results of a `bufio.SplitFunc`. -/
structure SplitResult where
  advance : Int
  token : Option GoString
  err : Option GoError
  deriving DecidableEq, Repr

/-- The function `splitFunc`, statement by statement. The result is `none` when a
slice expression panics; the flag `atEOF` is not read by the source. -/
def splitFunc (data : GoString) (_atEOF : Bool) : Option SplitResult := do
  let asStr : GoString := data
  let nextNewline := Index asStr [newline]
  let nextPrompt := Index asStr prompt
  let mut useNewline := false
  if nextNewline = -1 ∧ nextPrompt = -1 then
    return ⟨0, none, none⟩
  else if nextNewline ≥ 0 ∧ nextPrompt ≥ 0 then
    if nextNewline < nextPrompt then
      useNewline := true
    useNewline := false
  else if nextNewline ≥ 0 then
    useNewline := true
  if useNewline then
    return ⟨nextNewline + 1, some (← sliceTo asStr nextNewline), none⟩
  if nextPrompt = 0 then
    return ⟨(prompt.length : Int), some (← sliceTo asStr (prompt.length : Int)), none⟩
  return ⟨nextPrompt, some (← sliceTo asStr nextPrompt), none⟩

/-- One `scanner.Scan()` over the unconsumed bytes `buf` of a `bufio.Scanner` whose
split function is `splitFunc`: the token delivered and the bytes left unconsumed.
`none` when no token comes out of what is buffered (the scanner has to read more,
or stops: a split error, or an advance outside `0..len(buf)`). A nil token comes
from `splitFunc` only with advance 0, so nothing is consumed without a token. -/
def scanStep (atEOF : Bool) (buf : GoString) : Option (GoString × GoString) :=
  match splitFunc buf atEOF with
  | some ⟨advance, some token, none⟩ =>
    if 0 ≤ advance ∧ advance ≤ (buf.length : Int) then some (token, buf.drop advance.toNat)
    else none
  | _ => none

/-- Repeated `scanStep` on the buffered bytes, at most `fuel` times: the tokens
delivered in order, and the bytes still unconsumed when no token comes out. -/
def scanLoop (atEOF : Bool) : Nat → GoString → List GoString × GoString
  | 0, buf => ([], buf)
  | fuel + 1, buf =>
    match scanStep atEOF buf with
    | some (token, rest) =>
      let r := scanLoop atEOF fuel rest
      (token :: r.1, r.2)
    | none => ([], buf)

/-- The scanner run on the buffered bytes until `splitFunc` yields no token. Every
token consumes at least one byte, so `len(buf) + 1` rounds are enough
(`scanLoop_fuel`). -/
def scanBuffered (atEOF : Bool) (buf : GoString) : List GoString × GoString :=
  scanLoop atEOF (buf.length + 1) buf

/-- The scanner seen from the buffered bytes alone, with room in the buffer taken
for granted: each chunk is appended to the unconsumed bytes `buf` and every token
that comes out is delivered; after the last chunk the reader is at end of stream
and the split function is called with `atEOF = true`. The buffer of `bufio.Scanner`
itself is modelled by `Scanner` below. -/
def pumpChunks : GoString → List GoString → List GoString
  | buf, [] => (scanBuffered true buf).1
  | buf, chunk :: chunks =>
    let r := scanBuffered false (buf ++ chunk)
    r.1 ++ pumpChunks r.2 chunks

/-- The constant `bufio.MaxScanTokenSize`. -/
def MaxScanTokenSize : Nat := 64 * 1024

/-- The constant `startBufSize` of package `bufio`. -/
def startBufSize : Nat := 4096

/-- The constant `maxConsecutiveEmptyReads` of package `bufio`. -/
def maxConsecutiveEmptyReads : Nat := 100

/-- The largest Go `int` (64 bit). -/
def maxInt : Nat := 2 ^ 63 - 1

/-- The values the field `err` of a `bufio.Scanner` takes here; `split` is an error
returned by the split function. -/
inductive ScanError where
  | EOF
  | ErrTooLong
  | ErrNegativeAdvance
  | ErrAdvanceTooFar
  | ErrNoProgress
  | split (e : GoError)
  deriving DecidableEq, Repr

/-- A `bufio.Scanner` over a reader. The reader `r` is the list of chunks its
coming `Read` calls find, in order (an empty chunk is a `Read` that returns 0 bytes
and no error; after the last chunk comes `io.EOF`). Of the buffer only its length
`bufLen = len(s.buf)`, the offset `start` and the unconsumed bytes
`data = s.buf[s.start:s.end]` are kept, so `s.end` is `start + len(data)`. The field
`maxTokenSize` is `MaxScanTokenSize` throughout (`Buffer` is never called). -/
structure Scanner where
  r : List GoString
  token : Option GoString
  bufLen : Nat
  start : Nat
  data : GoString
  err : Option ScanError
  deriving DecidableEq, Repr

/-- Go `bufio.NewScanner(r)`: no buffer yet. -/
def NewScanner (r : List GoString) : Scanner :=
  { r := r, token := none, bufLen := 0, start := 0, data := [], err := none }

/-- One `Read(p)` of the reader with `space = len(p)`: the bytes read, whether the
result is `io.EOF`, and the reader afterwards. A chunk longer than `p` is handed
over in pieces. -/
def Read (r : List GoString) (space : Nat) : GoString × Bool × List GoString :=
  match r with
  | [] => ([], true, [])
  | c :: cs =>
    let n := min space c.length
    (c.take n, false, if c.drop n = [] then cs else c.drop n :: cs)

/-- The method `setErr` of `bufio.Scanner`. -/
def Scanner.setErr ( s : Scanner) (e : ScanError) : Scanner :=
  if s.err = none ∨ s.err = some ScanError.EOF then { s with err := some e } else s

/-- The read loop at the end of the `for` body of `Scan`, reading into `space` free
bytes: the bytes read, the error to set if any, and the reader afterwards. `left`
counts the empty reads still allowed (`maxConsecutiveEmptyReads` at the start). -/
def readLoop (space : Nat) : Nat → List GoString → GoString × Option ScanError × List GoString
  | 0, r =>
    match Read r space with
    | (p, true, r1) => (p, some ScanError.EOF, r1)
    | (p, false, r1) =>
      if p.length > 0 then (p, none, r1) else (p, some ScanError.ErrNoProgress, r1)
  | left + 1, r =>
    match Read r space with
    | (p, true, r1) => (p, some ScanError.EOF, r1)
    | (p, false, r1) =>
      if p.length > 0 then (p, none, r1) else readLoop space left r1

/-- How one pass through the `for` body of `Scan` ends: `Scan` returns `ok`, or the
body is run again, or the split function panics. -/
inductive Pass where
  | done (ok : Bool) (s : Scanner)
  | again (s : Scanner)
  | panic
  deriving DecidableEq, Repr

/-- The last part of the `for` body of `Scan`, "Finally we can read some input". -/
def Scanner.readInput ( s : Scanner) : Pass :=
  match readLoop (s.bufLen - (s.start + s.data.length)) maxConsecutiveEmptyReads s.r with
  | (p, e, r1) =>
    let s1 : Scanner := { s with r := r1, data := s.data ++ p }
    match e with
    | some e => Pass.again (s1.setErr e)
    | none => Pass.again s1

/-- The `for` body of `Scan` from "We cannot generate a token with what we are
holding" on: stop at an error, else shift, resize when full, and read. -/
def Scanner.needMore ( s : Scanner) : Pass :=
  if s.err ≠ none then
    Pass.done false { s with start := 0, data := [] }
  else
    let s1 : Scanner :=
      if s.start > 0 ∧ (s.start + s.data.length = s.bufLen ∨ s.start > s.bufLen / 2) then
        { s with start := 0 }
      else s
    if s1.start + s1.data.length = s1.bufLen then
      if s1.bufLen ≥ MaxScanTokenSize ∨ s1.bufLen > maxInt / 2 then
        Pass.done false (s1.setErr ScanError.ErrTooLong)
      else
        let newSize := s1.bufLen * 2
        let newSize := if newSize = 0 then startBufSize else newSize
        let newSize := min newSize MaxScanTokenSize
        Scanner.readInput { s1 with bufLen := newSize, start := 0 }
    else
      Scanner.readInput s1

/-- One pass through the `for` body of the method `Scan` with `splitFunc` as split
function. The split function never returns `ErrFinalToken`, and no token comes
without an advance, so the fields `done` and `empties` are left out. -/
def Scanner.pass ( s : Scanner) : Pass :=
  if s.data.length > 0 ∨ s.err ≠ none then
    match splitFunc s.data (decide (s.err ≠ none)) with
    | none => Pass.panic
    | some ⟨_, _, some e⟩ => Pass.done false (s.setErr (ScanError.split e))
    | some ⟨advance, token, none⟩ =>
      if advance < 0 then
        Pass.done false (s.setErr ScanError.ErrNegativeAdvance)
      else if advance > (s.data.length : Int) then
        Pass.done false (s.setErr ScanError.ErrAdvanceTooFar)
      else
        let s1 : Scanner :=
          { s with start := s.start + advance.toNat, data := s.data.drop advance.toNat,
                   token := token }
        if token ≠ none then Pass.done true s1 else Scanner.needMore s1
  else
    Scanner.needMore s

/-- The method `Err`: `nil` for `io.EOF`. -/
def Scanner.Err ( s : Scanner) : Option ScanError :=
  if s.err = some ScanError.EOF then none else s.err

/-- The method `Bytes`. -/
def Scanner.Bytes ( s : Scanner) : Option GoString :=
  s.token

/-- The method `Text`. -/
def Scanner.Text ( s : Scanner) : GoString :=
  s.token.getD []

/-- The loop `for scanner.Scan() ...` of `copyLinesToChan`, pass by pass: a pass
that ends `Scan` with `true` runs the loop body, which sends the token when `Err()`
is `nil` and otherwise sends it only if it is the prompt marker; `Scan` ending with
`false` ends the loop. The result is what is sent on `ch`, in order. -/
def pump : Nat → Scanner → List GoString
  | 0, _ => []
  | fuel + 1, s =>
    match s.pass with
    | Pass.panic => []
    | Pass.again s1 => pump fuel s1
    | Pass.done false _ => []
    | Pass.done true s1 =>
      if s1.Err = none then
        s1.Text :: pump fuel s1
      else if s1.Bytes.getD [] = [27, 91, 49, 109, 10, 83, 116, 101, 97, 109, 62, 27, 91, 48, 109] then
        s1.Bytes.getD [] :: pump fuel s1
      else
        pump fuel s1

/-- The size of what a reader still holds: its bytes and its chunks. -/
def chunkSize (r : List GoString) : Nat :=
  (r.map fun c => c.length + 1).sum

/-- A bound on the passes still to come: every pass that goes on consumes a byte of
`data`, or takes bytes or an empty chunk from the reader, or sets `err`. -/
def Scanner.passBound ( s : Scanner) : Nat :=
  s.data.length + 2 * chunkSize s.r + (if s.err = none then 1 else 0)

/-- The function `copyLinesToChan` on a reader that hands over `chunks` and then
`io.EOF`: the strings sent on `ch`, in order. The fuel is enough (`pump_fuel`). -/
def copyLinesToChan (chunks : List GoString) : List GoString :=
  pump ((NewScanner chunks).passBound + 1) (NewScanner chunks)

/-- Go `strings.HasSuffix`: `len(s) >= len(suffix) && s[len(s)-len(suffix):] == suffix`. -/
def HasSuffix (s suffix : GoString) : Bool :=
  decide (s.length ≥ suffix.length) && (s.drop (s.length - suffix.length) == suffix)

/-- Go `strings.Join`: the elements concatenated with `sep` between them. -/
def Join : List GoString → GoString → GoString
  | [], _ => []
  | [e], _ => e
  | e :: e2 :: es, sep => e ++ sep ++ Join (e2 :: es) sep

/-- Go `fmt.Errorf` with a format that is a literal followed by one `%s` or `%w` verb. -/
def Errorf (literal : GoString) (arg : GoString) : GoError :=
  literal ++ arg

/-- The literal "failed to gather output: ". -/
def failedToGatherOutput : GoString :=
  [102, 97, 105, 108, 101, 100, 32, 116, 111, 32, 103, 97, 116, 104, 101, 114, 32,
   111, 117, 116, 112, 117, 116, 58, 32]

/-- The literal "failed to execute command: ". -/
def failedToExecuteCommand : GoString :=
  [102, 97, 105, 108, 101, 100, 32, 116, 111, 32, 101, 120, 101, 99, 117, 116, 101, 32,
   99, 111, 109, 109, 97, 110, 100, 58, 32]

/-- The struct `Output`. -/
structure Output where
  Stdout : List GoString
  Stderr : List GoString
  deriving DecidableEq, Repr

/-- One receive of the `select` in `WaitForSuffix`: a string taken from the stdout
channel or from the stderr channel. -/
inductive Arrival where
  | stdout (newStdout : GoString)
  | stderr (newStderr : GoString)
  deriving DecidableEq, Repr

/-- How a call ends: it returns, or it waits on a channel for ever, or it panics. -/
inductive Outcome (α : Type) where
  | returned (a : α)
  | blocked
  | panicked
  deriving DecidableEq, Repr

/-- The struct `SessionIO` as the protocol sees it: `stdin` is what has been sent on
the stdin channel (oldest first), `arrivals` is what the `select` of `WaitForSuffix`
will receive from the stdout and stderr channels, in the order it receives them. The
mutex is left out: one caller runs at a time and every method releases it. -/
structure SessionIO where
  stdin : List GoString
  arrivals : List Arrival
  deriving DecidableEq, Repr

/-- The `for` loop of `WaitForSuffix` with its two accumulators. With nothing left
to arrive the `select` waits for ever. -/
def waitLoop (sfx : GoString) :
    List Arrival → List GoString → List GoString → Option (Output × List Arrival)
  | [], _, _ => none
  | Arrival.stdout newStdout :: rest, stdoutLines, stderrLines =>
    let stdoutLines := stdoutLines ++ [newStdout]
    if HasSuffix newStdout sfx then
      some ({ Stdout := stdoutLines, Stderr := stderrLines }, rest)
    else
      waitLoop sfx rest stdoutLines stderrLines
  | Arrival.stderr newStderr :: rest, stdoutLines, stderrLines =>
    waitLoop sfx rest stdoutLines (stderrLines ++ [newStderr])

/-- The method `WaitForSuffix`: the Go result pair and the session afterwards. -/
def SessionIO.WaitForSuffix ( s : SessionIO) (sfx : GoString) :
    Outcome ((Option Output × Option GoError) × SessionIO) :=
  match waitLoop sfx s.arrivals [] [] with
  | some (out, rest) => Outcome.returned ((some out, none), { s with arrivals := rest })
  | none => Outcome.blocked

/-- The method `WaitForPrompt`. -/
def SessionIO.WaitForPrompt ( s : SessionIO) :
    Outcome ((Option Output × Option GoError) × SessionIO) :=
  s.WaitForSuffix [27, 91, 49, 109, 10, 83, 116, 101, 97, 109, 62, 27, 91, 48, 109]

/-- The method `Exec`. -/
def SessionIO.Exec ( s : SessionIO) (command : GoString) :
    Outcome ((Option Output × Option GoError) × SessionIO) :=
  let s1 : SessionIO := { s with stdin := s.stdin ++ [command] }
  match s1.WaitForPrompt with
  | Outcome.blocked => Outcome.blocked
  | Outcome.panicked => Outcome.panicked
  | Outcome.returned ((_, some err), s2) =>
    Outcome.returned ((none, some (Errorf failedToGatherOutput err)), s2)
  | Outcome.returned ((none, none), _) => Outcome.panicked
  | Outcome.returned ((some cmdOut, none), s2) =>
    if cmdOut.Stderr.length ≠ 0 then
      Outcome.returned
        ((none, some (Errorf failedToExecuteCommand (Join cmdOut.Stderr [newline]))), s2)
    else
      Outcome.returned ((some cmdOut, none), s2)

/-- The newline-terminated lines of a byte stream up to the first run of
`MaxScanTokenSize` bytes without a newline, for comparison with the token sequences:
`acc` holds the bytes of the line being read; each newline closes a line; bytes
after the last newline are not a line. -/
def scannedLines : GoString → GoString → List GoString
  | _, [] => []
  | acc, b :: bs =>
    if b = newline then acc :: scannedLines [] bs
    else if acc.length + 1 ≥ MaxScanTokenSize then []
    else scannedLines (acc ++ [b]) bs

/-- The strings among `arrivals` that came from the stdout channel, in order. -/
def stdoutTokens (arrivals : List Arrival) : List GoString :=
  arrivals.filterMap fun a =>
    match a with
    | Arrival.stdout t => some t
    | Arrival.stderr _ => none

/-- The strings among `arrivals` that came from the stderr channel, in order. -/
def stderrTokens (arrivals : List Arrival) : List GoString :=
  arrivals.filterMap fun a =>
    match a with
    | Arrival.stdout _ => none
    | Arrival.stderr t => some t

/-! ## `strings.Index` -/

theorem indexOf_none_iff (substr s : GoString) :
    indexOf? substr s = none ↔ ¬ substr <:+: s := by
  induction s with
  | nil =>
    by_cases h : substr = [] <;> simp [indexOf?, h]
  | cons c cs ih =>
    rw [List.infix_cons_iff]
    by_cases h : substr <+: c :: cs
    · simp [indexOf?, h]
    · simp [indexOf?, h, ih]

theorem indexOf_some_iff (substr s : GoString) (k : Nat) :
    indexOf? substr s = some k ↔
      k ≤ s.length ∧ substr <+: s.drop k ∧ ∀ j, j < k → ¬ substr <+: s.drop j := by
  induction s generalizing k with
  | nil =>
    by_cases h : substr = []
    · subst h
      simp [indexOf?]
      constructor
      · rintro rfl; simp
      · rintro ⟨h, -⟩; exact h.symm
    · simp [indexOf?, h]
  | cons c cs ih =>
    by_cases h : substr <+: c :: cs
    · simp only [indexOf?, List.isPrefixOf_iff_prefix, h, if_true, Option.some.injEq]
      constructor
      · rintro rfl
        simpa using h
      · rintro ⟨-, -, h3⟩
        by_contra hk
        exact h3 0 (Nat.pos_of_ne_zero (Ne.symm hk)) (by simpa using h)
    · simp only [indexOf?, List.isPrefixOf_iff_prefix, h, if_false, Option.map_eq_some']
      constructor
      · rintro ⟨k', hk', rfl⟩
        obtain ⟨h1, h2, h3⟩ := (ih k').1 hk'
        refine ⟨by simpa using h1, by simpa using h2, ?_⟩
        intro j hj
        cases j with
        | zero => simpa using h
        | succ j => simpa using h3 j (by omega)
      · rintro ⟨h1, h2, h3⟩
        cases k with
        | zero => exact absurd (by simpa using h2) h
        | succ k' =>
          refine ⟨k', (ih k').2 ⟨?_, ?_, ?_⟩, rfl⟩
          · simpa using h1
          · simpa using h2
          · intro j hj
            simpa using h3 (j + 1) (by omega)

theorem Index_of_none {s substr : GoString} (h : indexOf? substr s = none) :
    Index s substr = -1 := by
  simp [Index, h]

theorem Index_of_some {s substr : GoString} {k : Nat} (h : indexOf? substr s = some k) :
    Index s substr = (k : Int) := by
  simp [Index, h]

theorem newline_infix_prompt : [newline] <:+: prompt :=
  ⟨[27, 91, 49, 109], [83, 116, 101, 97, 109, 62, 27, 91, 48, 109], rfl⟩

theorem infix_of_indexOf_some {substr s : GoString} {k : Nat}
    (h : indexOf? substr s = some k) : substr <:+: s := by
  obtain ⟨-, h2, -⟩ := (indexOf_some_iff substr s k).1 h
  exact h2.isInfix.trans (List.drop_suffix k s).isInfix

/-- Wherever the prompt marker occurs there is a newline: the marker holds one. -/
theorem newline_found_of_prompt_found {data : GoString} {k : Nat}
    (h : indexOf? prompt data = some k) : ∃ n, indexOf? [newline] data = some n := by
  cases hn : indexOf? [newline] data with
  | some n => exact ⟨n, rfl⟩
  | none =>
    exact absurd (newline_infix_prompt.trans (infix_of_indexOf_some h))
      ((indexOf_none_iff _ _).1 hn)

/-! ## The four cases of `splitFunc` -/

theorem splitFunc_neither {data : GoString} (atEOF : Bool)
    (hn : indexOf? [newline] data = none) (hp : indexOf? prompt data = none) :
    splitFunc data atEOF = some ⟨0, none, none⟩ := by
  simp [splitFunc, Index_of_none hn, Index_of_none hp]

theorem splitFunc_newline_only {data : GoString} (atEOF : Bool) {n : Nat}
    (hn : indexOf? [newline] data = some n) (hp : indexOf? prompt data = none) :
    splitFunc data atEOF = some ⟨(n : Int) + 1, some (data.take n), none⟩ := by
  have hle : n ≤ data.length := ((indexOf_some_iff _ _ _).1 hn).1
  have h0 : ¬ ((n : Int) = -1) := by omega
  simp [splitFunc, Index_of_some hn, Index_of_none hp, sliceTo, h0, hle]

theorem splitFunc_prompt_first {data : GoString} (atEOF : Bool)
    (hp : indexOf? prompt data = some 0) :
    splitFunc data atEOF = some ⟨(prompt.length : Int), some prompt, none⟩ := by
  obtain ⟨n, hn⟩ := newline_found_of_prompt_found hp
  have hpre : prompt <+: data := by simpa using ((indexOf_some_iff _ _ _).1 hp).2.1
  have hlen : prompt.length ≤ data.length := hpre.length_le
  have htake : data.take prompt.length = prompt := (List.prefix_iff_eq_take.1 hpre).symm
  have h0 : ¬ ((n : Int) = -1) := by omega
  have hlen' : (15 : Int) ≤ (data.length : Int) := by
    have : prompt.length = 15 := rfl
    omega
  have htake' : List.take 15 data = prompt := htake
  simp [splitFunc, Index_of_some hn, Index_of_some hp, sliceTo, h0,
    hlen', htake', show prompt.length = 15 from rfl]

theorem splitFunc_prompt_later {data : GoString} (atEOF : Bool) {k : Nat}
    (hp : indexOf? prompt data = some (k + 1)) :
    splitFunc data atEOF = some ⟨((k + 1 : Nat) : Int), some (data.take (k + 1)), none⟩ := by
  obtain ⟨n, hn⟩ := newline_found_of_prompt_found hp
  have hle : k + 1 ≤ data.length := ((indexOf_some_iff _ _ _).1 hp).1
  have h0 : ¬ ((n : Int) = -1) := by omega
  have h1 : ¬ (((k : Int) + 1) = 0) := by omega
  have h2 : (0 : Int) ≤ (k : Int) + 1 := by omega
  have h3 : ((k : Int) + 1).toNat = k + 1 := by omega
  have h4 : (k : Int) + 1 ≤ (data.length : Int) := by omega
  simp [splitFunc, Index_of_some hn, Index_of_some hp, sliceTo, h0, h1,
    h2, h3, h4]

theorem singleton_infix_iff_mem (b : Byte) (s : GoString) : [b] <:+: s ↔ b ∈ s := by
  constructor
  · rintro ⟨a, c, rfl⟩
    simp
  · intro h
    obtain ⟨a, c, rfl⟩ := List.append_of_mem h
    exact ⟨a, c, by simp⟩

theorem indexOf_newline_none_iff (s : GoString) :
    indexOf? [newline] s = none ↔ newline ∉ s := by
  rw [indexOf_none_iff, singleton_infix_iff_mem]

theorem indexOf_prefixed (substr rest : GoString) : indexOf? substr (substr ++ rest) = some 0 := by
  rw [indexOf_some_iff]
  simp

/-- A case analysis of `splitFunc` by what `strings.Index` finds. -/
theorem splitFunc_cases (data : GoString) (atEOF : Bool) :
    (indexOf? [newline] data = none ∧ indexOf? prompt data = none ∧
        splitFunc data atEOF = some ⟨0, none, none⟩) ∨
    (∃ n, indexOf? [newline] data = some n ∧ indexOf? prompt data = none ∧
        splitFunc data atEOF = some ⟨(n : Int) + 1, some (data.take n), none⟩) ∨
    (indexOf? prompt data = some 0 ∧
        splitFunc data atEOF = some ⟨(prompt.length : Int), some prompt, none⟩) ∨
    (∃ k, indexOf? prompt data = some (k + 1) ∧
        splitFunc data atEOF = some ⟨((k + 1 : Nat) : Int), some (data.take (k + 1)), none⟩) := by
  cases hp : indexOf? prompt data with
  | none =>
    cases hn : indexOf? [newline] data with
    | none => exact Or.inl ⟨rfl, rfl, splitFunc_neither atEOF hn hp⟩
    | some n => exact Or.inr (Or.inl ⟨n, rfl, rfl, splitFunc_newline_only atEOF hn hp⟩)
  | some k =>
    cases k with
    | zero => exact Or.inr (Or.inr (Or.inl ⟨rfl, splitFunc_prompt_first atEOF hp⟩))
    | succ k => exact Or.inr (Or.inr (Or.inr ⟨k, rfl, splitFunc_prompt_later atEOF hp⟩))

/-! ## The scanner loop -/

theorem scanStep_neither {buf : GoString} (atEOF : Bool)
    (hn : indexOf? [newline] buf = none) (hp : indexOf? prompt buf = none) :
    scanStep atEOF buf = none := by
  simp [scanStep, splitFunc_neither atEOF hn hp]

theorem scanStep_newline_only {buf : GoString} (atEOF : Bool) {n : Nat}
    (hn : indexOf? [newline] buf = some n) (hp : indexOf? prompt buf = none) :
    scanStep atEOF buf = some (buf.take n, buf.drop (n + 1)) := by
  obtain ⟨-, h2, -⟩ := (indexOf_some_iff _ _ _).1 hn
  have hlt : n + 1 ≤ buf.length := by
    have := h2.length_le
    simp at this
    omega
  have h1 : (0 : Int) ≤ (n : Int) + 1 := by omega
  have h2 : (n : Int) + 1 ≤ (buf.length : Int) := by omega
  have h3 : ((n : Int) + 1).toNat = n + 1 := by omega
  simp [scanStep, splitFunc_newline_only atEOF hn hp, h1, h2, h3]

theorem scanStep_prompt_first {buf : GoString} (atEOF : Bool)
    (hp : indexOf? prompt buf = some 0) :
    scanStep atEOF buf = some (prompt, buf.drop prompt.length) := by
  have hpre : prompt <+: buf := by simpa using ((indexOf_some_iff _ _ _).1 hp).2.1
  have hlen : prompt.length ≤ buf.length := hpre.length_le
  have h2 : ((prompt.length : Nat) : Int) ≤ (buf.length : Int) := by omega
  simp [scanStep, splitFunc_prompt_first atEOF hp, h2]

theorem scanStep_prompt_later {buf : GoString} (atEOF : Bool) {k : Nat}
    (hp : indexOf? prompt buf = some (k + 1)) :
    scanStep atEOF buf = some (buf.take (k + 1), buf.drop (k + 1)) := by
  have hle : k + 1 ≤ buf.length := ((indexOf_some_iff _ _ _).1 hp).1
  have h1 : (0 : Int) ≤ (k : Int) + 1 := by omega
  have h2 : (k : Int) + 1 ≤ (buf.length : Int) := by omega
  have h3 : ((k : Int) + 1).toNat = k + 1 := by omega
  simp [scanStep, splitFunc_prompt_later atEOF hp, h1, h2, h3]

/-- Every token the scanner takes out of the buffer consumes at least one byte. -/
theorem scanStep_shrinks {atEOF : Bool} {buf token rest : GoString}
    (h : scanStep atEOF buf = some (token, rest)) : rest.length < buf.length := by
  cases hp : indexOf? prompt buf with
  | none =>
    cases hn : indexOf? [newline] buf with
    | none => simp [scanStep_neither atEOF hn hp] at h
    | some n =>
      obtain ⟨-, h2, -⟩ := (indexOf_some_iff _ _ _).1 hn
      have := h2.length_le
      simp at this
      rw [scanStep_newline_only atEOF hn hp] at h
      simp at h
      rw [← h.2]
      simp
      omega
  | some k =>
    cases k with
    | zero =>
      have hpre : prompt <+: buf := by simpa using ((indexOf_some_iff _ _ _).1 hp).2.1
      have hlen : prompt.length ≤ buf.length := hpre.length_le
      have h15 : prompt.length = 15 := rfl
      rw [scanStep_prompt_first atEOF hp] at h
      simp at h
      rw [← h.2]
      simp
      omega
    | succ k =>
      have hle : k + 1 ≤ buf.length := ((indexOf_some_iff _ _ _).1 hp).1
      rw [scanStep_prompt_later atEOF hp] at h
      simp at h
      rw [← h.2]
      simp
      omega

/-- Any fuel above the buffer length gives the same run: the loop stops because
`splitFunc` yields no token, not because the fuel is used up. -/
theorem scanLoop_fuel (atEOF : Bool) (n m : Nat) (buf : GoString)
    (hn : buf.length < n) (hm : buf.length < m) :
    scanLoop atEOF n buf = scanLoop atEOF m buf := by
  induction n generalizing m buf with
  | zero => omega
  | succ n ih =>
    cases m with
    | zero => omega
    | succ m =>
      simp only [scanLoop]
      cases hs : scanStep atEOF buf with
      | none => rfl
      | some p =>
        obtain ⟨token, rest⟩ := p
        have hlt := scanStep_shrinks hs
        simp only
        rw [ih m rest (by omega) (by omega)]

theorem scanBuffered_none {atEOF : Bool} {buf : GoString} (h : scanStep atEOF buf = none) :
    scanBuffered atEOF buf = ([], buf) := by
  simp [scanBuffered, scanLoop, h]

theorem scanBuffered_some {atEOF : Bool} {buf token rest : GoString}
    (h : scanStep atEOF buf = some (token, rest)) :
    scanBuffered atEOF buf =
      (token :: (scanBuffered atEOF rest).1, (scanBuffered atEOF rest).2) := by
  have hlt := scanStep_shrinks h
  have hstep : scanLoop atEOF (buf.length + 1) buf =
      (token :: (scanLoop atEOF buf.length rest).1, (scanLoop atEOF buf.length rest).2) := by
    simp only [scanLoop, h]
  rw [show scanBuffered atEOF buf = scanLoop atEOF (buf.length + 1) buf from rfl, hstep,
    scanLoop_fuel atEOF buf.length (rest.length + 1) rest hlt (by omega)]
  rfl

/-! ## Tokens and the prompt marker -/

theorem HasSuffix_iff (s suffix : GoString) : HasSuffix s suffix = true ↔ suffix <:+ s := by
  simp only [HasSuffix, Bool.and_eq_true, decide_eq_true_eq, beq_iff_eq]
  constructor
  · rintro ⟨-, h⟩
    exact List.suffix_iff_eq_drop.2 h.symm
  · intro h
    exact ⟨h.length_le, (List.suffix_iff_eq_drop.1 h).symm⟩

/-- Before the first place where the prompt marker starts there is no whole marker. -/
theorem no_prompt_before_first {data : GoString} {k : Nat}
    (hp : indexOf? prompt data = some k) : ¬ prompt <:+: data.take k := by
  rintro ⟨a, c, hac⟩
  obtain ⟨hk, -, hfirst⟩ := (indexOf_some_iff _ _ _).1 hp
  have hlen : (a ++ prompt ++ c).length = k := by
    rw [hac, List.length_take]
    omega
  have h15 : prompt.length = 15 := rfl
  simp only [List.length_append, h15] at hlen
  have hdata : data = a ++ (prompt ++ (c ++ data.drop k)) := by
    conv_lhs => rw [← List.take_append_drop k data, ← hac]
    simp
  apply hfirst a.length (by omega)
  rw [hdata, List.drop_left]
  exact List.prefix_append _ _

theorem prefix_token_prompt_free {data token : GoString} (hp : indexOf? prompt data = none)
    (h : token <+: data) : ¬ prompt <:+: token := fun hin =>
  (indexOf_none_iff _ _).1 hp (hin.trans h.isInfix)

theorem newline_at_of_prompt_starting {s : GoString} {j : Nat} (h : prompt <+: s.drop j) :
    s[j + 4]? = some newline := by
  obtain ⟨t, ht⟩ := h
  rw [← List.getElem?_drop, ← ht]
  simp [prompt, newline]

/-- A prompt marker that follows bytes without a newline is the first one. -/
theorem prompt_first_after_newline_free (pre post : GoString) (hnl : newline ∉ pre) :
    ∀ j, j < pre.length → ¬ prompt <+: (pre ++ prompt ++ post).drop j := by
  intro j hj hpre
  have h4 := newline_at_of_prompt_starting hpre
  rw [List.append_assoc] at h4
  by_cases hlt : j + 4 < pre.length
  · rw [List.getElem?_append_left hlt] at h4
    exact hnl (List.getElem?_mem h4)
  · rw [List.getElem?_append_right (by omega)] at h4
    obtain ⟨i, hi⟩ : ∃ i, j + 4 - pre.length = i := ⟨_, rfl⟩
    rw [hi] at h4
    have hi3 : i ≤ 3 := by omega
    interval_cases i <;> simp [prompt, newline] at h4

/-! ## Buffers without a newline -/

theorem indexOf_prompt_none_of_newline_free {s : GoString} (hnl : newline ∉ s) :
    indexOf? prompt s = none := by
  rw [indexOf_none_iff]
  intro h
  exact hnl ((singleton_infix_iff_mem _ _).1 (newline_infix_prompt.trans h))

/-! ## The tokenizer claims -/

/-- C1 (the code departs from the claim): on the buffer `a`, newline, `b`, prompt
marker, the first newline is at index 1 and the marker starts at index 3, yet the
token `splitFunc` returns is the three bytes before the marker, newline included,
with consumed length 3, and not the byte `a` with consumed length 2. -/
theorem splitFunc_newline_before_prompt_not_used :
    Index ([97, 10, 98] ++ prompt) [newline] = 1 ∧
    Index ([97, 10, 98] ++ prompt) prompt = 3 ∧
    (∀ atEOF, splitFunc ([97, 10, 98] ++ prompt) atEOF = some ⟨3, some [97, 10, 98], none⟩) ∧
    (∀ atEOF, splitFunc ([97, 10, 98] ++ prompt) atEOF ≠ some ⟨2, some [97], none⟩) := by
  decide

/-- C6: a buffer that begins with the prompt marker, whatever follows it and
whatever the end-of-stream flag, gives the marker as token and its length, 15, as
consumed length, with no error. -/
theorem splitFunc_buffer_begins_with_prompt (rest : GoString) (atEOF : Bool) :
    splitFunc (prompt ++ rest) atEOF = some ⟨15, some prompt, none⟩ ∧
    (prompt.length : Int) = 15 := by
  refine ⟨?_, rfl⟩
  have h := splitFunc_prompt_first atEOF (indexOf_prefixed prompt rest)
  simpa [show prompt.length = 15 from rfl] using h

/-- C7: a buffer with no newline and no prompt marker gives consumed length 0, no
token and no error under either end-of-stream flag, and the pump emits nothing for
such bytes left over at the end of the stream. -/
theorem splitFunc_needs_more_data (data : GoString) (atEOF : Bool)
    (hnl : newline ∉ data) (hpr : ¬ prompt <:+: data) :
    splitFunc data atEOF = some ⟨0, none, none⟩ ∧ pumpChunks data [] = [] := by
  have hn := (indexOf_newline_none_iff data).2 hnl
  have hp := (indexOf_none_iff prompt data).2 hpr
  refine ⟨splitFunc_neither atEOF hn hp, ?_⟩
  simp [pumpChunks, scanBuffered_none (scanStep_neither true hn hp)]

/-- Witness for C7: the buffer `ab` at end of stream. -/
theorem splitFunc_needs_more_data_witness :
    newline ∉ [97, 98] ∧ ¬ prompt <:+: [97, 98] ∧
    (splitFunc [97, 98] true = some ⟨0, none, none⟩ ∧ pumpChunks [97, 98] [] = []) :=
  ⟨by decide, by decide, splitFunc_needs_more_data [97, 98] true (by decide) (by decide)⟩

/-- C8: for every buffer and flag `splitFunc` returns (it does not panic) with a
consumed length between 0 and the buffer length; a returned token is a prefix of
the buffer no longer than the consumed length; the consumed length is 0 exactly when
no token is returned; and after a token the scanner goes on with exactly the bytes
after the consumed prefix. -/
theorem splitFunc_advance_within_buffer (data : GoString) (atEOF : Bool) :
    ∃ r : SplitResult, splitFunc data atEOF = some r ∧ r.err = none ∧
      0 ≤ r.advance ∧ r.advance ≤ (data.length : Int) ∧
      (r.advance = 0 ↔ r.token = none) ∧
      ∀ token, r.token = some token →
        token <+: data ∧ (token.length : Int) ≤ r.advance ∧
        scanStep atEOF data = some (token, data.drop r.advance.toNat) ∧
        scanBuffered atEOF data =
          (token :: (scanBuffered atEOF (data.drop r.advance.toNat)).1,
            (scanBuffered atEOF (data.drop r.advance.toNat)).2) := by
  rcases splitFunc_cases data atEOF with
    ⟨hn, hp, h⟩ | ⟨n, hn, hp, h⟩ | ⟨hp, h⟩ | ⟨k, hp, h⟩
  · exact ⟨_, h, rfl, le_refl _, by simp, by simp, by simp⟩
  · obtain ⟨-, h2, -⟩ := (indexOf_some_iff _ _ _).1 hn
    have hlen := h2.length_le
    simp at hlen
    have hstep := scanStep_newline_only atEOF hn hp
    have h3 : ((n : Int) + 1).toNat = n + 1 := by omega
    refine ⟨_, h, rfl, by simp; omega, by simp; omega, by simp; omega, ?_⟩
    intro token htok
    simp only [Option.some.injEq] at htok
    subst htok
    simp only [h3]
    refine ⟨List.take_prefix _ _, ?_, hstep, scanBuffered_some hstep⟩
    rw [List.length_take]
    omega
  · have hpre : prompt <+: data := by simpa using ((indexOf_some_iff _ _ _).1 hp).2.1
    have hlen : prompt.length ≤ data.length := hpre.length_le
    have h15 : prompt.length = 15 := rfl
    have hstep := scanStep_prompt_first atEOF hp
    refine ⟨_, h, rfl, by simp, by simp; omega, by simp [h15], ?_⟩
    intro token htok
    simp only [Option.some.injEq] at htok
    subst htok
    exact ⟨hpre, le_refl _, by simpa using hstep, by simpa using scanBuffered_some hstep⟩
  · have hle : k + 1 ≤ data.length := ((indexOf_some_iff _ _ _).1 hp).1
    have hstep := scanStep_prompt_later atEOF hp
    refine ⟨_, h, rfl, by simp; omega, by simp; omega, by simp; omega, ?_⟩
    intro token htok
    simp only [Option.some.injEq] at htok
    subst htok
    refine ⟨List.take_prefix _ _, ?_, by simpa using hstep, by simpa using scanBuffered_some hstep⟩
    rw [List.length_take]
    simp

/-- C9: when the first prompt marker of the buffer starts at offset `k > 0` and no
newline stands before offset `k` (the buffer is `pre`, marker, `post` with `pre` of
length `k` and newline-free, which makes that marker the first one), `splitFunc`
returns the first `k` bytes as token and `k` as consumed length, and called on the
remaining bytes it returns the marker itself. -/
theorem splitFunc_stops_before_prompt (pre post : GoString) (atEOF : Bool)
    (hk : 0 < pre.length) (hnl : newline ∉ pre) :
    Index (pre ++ prompt ++ post) prompt = (pre.length : Int) ∧
    splitFunc (pre ++ prompt ++ post) atEOF = some ⟨(pre.length : Int), some pre, none⟩ ∧
    splitFunc ((pre ++ prompt ++ post).drop pre.length) atEOF =
      some ⟨(prompt.length : Int), some prompt, none⟩ := by
  have hidx : indexOf? prompt (pre ++ prompt ++ post) = some pre.length := by
    rw [indexOf_some_iff]
    refine ⟨by simp, ?_, prompt_first_after_newline_free pre post hnl⟩
    rw [List.append_assoc, List.drop_left]
    exact List.prefix_append _ _
  obtain ⟨k, hk'⟩ : ∃ k, pre.length = k + 1 := ⟨pre.length - 1, by omega⟩
  refine ⟨Index_of_some hidx, ?_, ?_⟩
  · rw [hk'] at hidx
    have h := splitFunc_prompt_later atEOF hidx
    rw [h, ← hk', List.append_assoc, List.take_left]
  · rw [List.append_assoc, List.drop_left]
    exact splitFunc_prompt_first atEOF (indexOf_prefixed prompt post)

/-- Witness for C9: the buffer `ab`, prompt marker, `c`, newline. -/
theorem splitFunc_stops_before_prompt_witness :
    Index ([97, 98] ++ prompt ++ [99, 10]) prompt = 2 ∧
    splitFunc ([97, 98] ++ prompt ++ [99, 10]) false = some ⟨2, some [97, 98], none⟩ ∧
    splitFunc (([97, 98] ++ prompt ++ [99, 10]).drop 2) false =
      some ⟨(prompt.length : Int), some prompt, none⟩ :=
  splitFunc_stops_before_prompt [97, 98] [99, 10] false (by decide) (by decide)

/-- C10: a token returned by `splitFunc` is the prompt marker or holds no prompt
marker, so it ends with the marker (the stop test of `WaitForPrompt`) exactly when
it is the marker. -/
theorem splitFunc_token_prompt_or_free (data : GoString) (atEOF : Bool) (r : SplitResult)
    (token : GoString) (hr : splitFunc data atEOF = some r) (htok : r.token = some token) :
    (token = prompt ∨ ¬ prompt <:+: token) ∧
    (HasSuffix token prompt = true ↔ token = prompt) := by
  have hmain : token = prompt ∨ ¬ prompt <:+: token := by
    rcases splitFunc_cases data atEOF with
      ⟨hn, hp, h⟩ | ⟨n, hn, hp, h⟩ | ⟨hp, h⟩ | ⟨k, hp, h⟩
    all_goals
      rw [h] at hr
      simp only [Option.some.injEq] at hr
      subst hr
      simp only [Option.some.injEq] at htok
    · cases htok
    · subst htok
      exact Or.inr (prefix_token_prompt_free hp (List.take_prefix _ _))
    · exact Or.inl htok.symm
    · subst htok
      exact Or.inr (no_prompt_before_first hp)
  refine ⟨hmain, ?_⟩
  rw [HasSuffix_iff]
  constructor
  · intro hs
    rcases hmain with h | h
    · exact h
    · exact absurd hs.isInfix h
  · rintro rfl
    exact List.suffix_refl _

/-- Witness for C10: the token of the buffer prompt marker, `a`. -/
theorem splitFunc_token_prompt_or_free_witness :
    (prompt = prompt ∨ ¬ prompt <:+: prompt) ∧ (HasSuffix prompt prompt = true ↔ prompt = prompt) :=
  splitFunc_token_prompt_or_free (prompt ++ [97]) false ⟨15, some prompt, none⟩ prompt
    (by decide) rfl

/-! ## `WaitForSuffix` and `Exec` -/

theorem Join_eq_intercalate (elems : List GoString) (sep : GoString) :
    Join elems sep = sep.intercalate elems := by
  induction elems with
  | nil => rfl
  | cons e es ih =>
    cases es with
    | nil => simp [Join, List.intercalate]
    | cons e2 es =>
      rw [Join, ih]
      simp [List.intercalate, List.intersperse]

/-- The wait loop runs through arrivals whose stdout strings lack the suffix and
stops at the first stdout string that has it. -/
theorem waitLoop_stops (sfx p : GoString) (post : List Arrival) (hp : HasSuffix p sfx = true)
    (pre : List Arrival) :
    (∀ t, Arrival.stdout t ∈ pre → HasSuffix t sfx = false) →
    ∀ stdoutLines stderrLines : List GoString,
      waitLoop sfx (pre ++ Arrival.stdout p :: post) stdoutLines stderrLines =
        some ({ Stdout := stdoutLines ++ stdoutTokens pre ++ [p],
                Stderr := stderrLines ++ stderrTokens pre }, post) := by
  induction pre with
  | nil =>
    intro _ stdoutLines stderrLines
    simp [waitLoop, hp, stdoutTokens, stderrTokens]
  | cons a pre ih =>
    intro hpre stdoutLines stderrLines
    have hrest : ∀ t, Arrival.stdout t ∈ pre → HasSuffix t sfx = false :=
      fun t ht => hpre t (List.mem_cons_of_mem _ ht)
    cases a with
    | stdout t =>
      have ht : HasSuffix t sfx = false := hpre t (List.mem_cons_self _ _)
      have e := ih hrest (stdoutLines ++ [t]) stderrLines
      simp [waitLoop, ht, e, stdoutTokens, stderrTokens]
    | stderr t =>
      have e := ih hrest stdoutLines (stderrLines ++ [t])
      simp [waitLoop, e, stdoutTokens, stderrTokens]

theorem WaitForSuffix_stops (stdin : List GoString) (sfx p : GoString)
    (pre post : List Arrival) (hpre : ∀ t, Arrival.stdout t ∈ pre → HasSuffix t sfx = false)
    (hp : HasSuffix p sfx = true) :
    SessionIO.WaitForSuffix { stdin := stdin, arrivals := pre ++ Arrival.stdout p :: post } sfx =
      Outcome.returned
        ((some { Stdout := stdoutTokens pre ++ [p], Stderr := stderrTokens pre }, none),
          { stdin := stdin, arrivals := post }) := by
  simp [ SessionIO.WaitForSuffix, waitLoop_stops sfx p post hp pre hpre]

theorem stdoutTokens_map_stdout (ts : List GoString) :
    stdoutTokens (ts.map Arrival.stdout) = ts := by
  induction ts with
  | nil => rfl
  | cons t ts ih => simpa [stdoutTokens] using ih

theorem stderrTokens_map_stdout (ts : List GoString) :
    stderrTokens (ts.map Arrival.stdout) = [] := by
  induction ts with
  | nil => rfl
  | cons t ts ih => simp [stderrTokens]

/-- What `Exec` does when the prompt is reached, in terms of the consumed arrivals. -/
theorem Exec_returns (stdin : List GoString) (command p : GoString)
    (pre post : List Arrival)
    (hpre : ∀ t, Arrival.stdout t ∈ pre → HasSuffix t prompt = false)
    (hp : HasSuffix p prompt = true) :
    SessionIO.Exec { stdin := stdin, arrivals := pre ++ Arrival.stdout p :: post } command =
      Outcome.returned
        (if (stderrTokens pre).length ≠ 0 then
            (none, some (Errorf failedToExecuteCommand (Join (stderrTokens pre) [newline])))
          else
            (some { Stdout := stdoutTokens pre ++ [p], Stderr := stderrTokens pre }, none),
          { stdin := stdin ++ [command], arrivals := post }) := by
  have h := WaitForSuffix_stops (stdin ++ [command]) prompt p pre post hpre hp
  simp only [ SessionIO.Exec, SessionIO.WaitForPrompt]
  rw [show ([27, 91, 49, 109, 10, 83, 116, 101, 97, 109, 62, 27, 91, 48, 109] : GoString) = prompt
    from rfl, h]
  by_cases he : (stderrTokens pre).length ≠ 0
  · simp only [he, ne_eq, not_false_eq_true, if_true]
  · simp only [he, ne_eq, if_false]

/-- A sequence of arrivals that holds a stdout string with the suffix splits at the
first such string. -/
theorem first_match_split (sfx : GoString) (arrivals : List Arrival)
    (h : ∃ t, Arrival.stdout t ∈ arrivals ∧ HasSuffix t sfx = true) :
    ∃ pre p post, arrivals = pre ++ Arrival.stdout p :: post ∧
      (∀ t, Arrival.stdout t ∈ pre → HasSuffix t sfx = false) ∧ HasSuffix p sfx = true := by
  induction arrivals with
  | nil =>
    obtain ⟨t, ht, -⟩ := h
    simp at ht
  | cons a rest ih =>
    by_cases ha : ∃ t0, a = Arrival.stdout t0 ∧ HasSuffix t0 sfx = true
    · obtain ⟨t0, rfl, h0⟩ := ha
      exact ⟨[], t0, rest, rfl, by simp, h0⟩
    · have hrest : ∃ t, Arrival.stdout t ∈ rest ∧ HasSuffix t sfx = true := by
        obtain ⟨t, ht, hs⟩ := h
        rcases List.mem_cons.1 ht with heq | hmem
        · exact absurd ⟨t, heq.symm, hs⟩ ha
        · exact ⟨t, hmem, hs⟩
      obtain ⟨pre, p, post, rfl, hpre, hp⟩ := ih hrest
      refine ⟨a :: pre, p, post, rfl, ?_, hp⟩
      intro t ht
      rcases List.mem_cons.1 ht with heq | hmem
      · cases hs : HasSuffix t sfx with
        | false => rfl
        | true => exact absurd ⟨t, heq.symm, hs⟩ ha
      · exact hpre t hmem

/-! ## The protocol claims -/

/-- C3 (as stated it fails): after `login anonymous`, with the stdout line
`Logging in...` and then the prompt marker arriving and nothing on stderr, `Exec`
does not return an Output whose Stdout is exactly that one line: the Stdout it
returns also holds the prompt marker, as its last element. -/
theorem Exec_stdout_holds_prompt_token :
    SessionIO.Exec
        { stdin := [],
          arrivals := [Arrival.stdout [76, 111, 103, 103, 105, 110, 103, 32, 105, 110, 46, 46, 46],
                       Arrival.stdout prompt] }
        [108, 111, 103, 105, 110, 32, 97, 110, 111, 110, 121, 109, 111, 117, 115] =
      Outcome.returned
        ((some { Stdout := [[76, 111, 103, 103, 105, 110, 103, 32, 105, 110, 46, 46, 46], prompt],
                 Stderr := [] }, none),
          { stdin := [[108, 111, 103, 105, 110, 32, 97, 110, 111, 110, 121, 109, 111, 117, 115]],
            arrivals := [] }) ∧
    ¬ ∃ out s2,
      SessionIO.Exec
          { stdin := [],
            arrivals := [Arrival.stdout [76, 111, 103, 103, 105, 110, 103, 32, 105, 110, 46, 46, 46],
                         Arrival.stdout prompt] }
          [108, 111, 103, 105, 110, 32, 97, 110, 111, 110, 121, 109, 111, 117, 115] =
        Outcome.returned ((some out, none), s2) ∧
      out.Stdout = [[76, 111, 103, 103, 105, 110, 103, 32, 105, 110, 46, 46, 46]] ∧
      out.Stderr = [] := by
  have heval : SessionIO.Exec
        { stdin := [],
          arrivals := [Arrival.stdout [76, 111, 103, 103, 105, 110, 103, 32, 105, 110, 46, 46, 46],
                       Arrival.stdout prompt] }
        [108, 111, 103, 105, 110, 32, 97, 110, 111, 110, 121, 109, 111, 117, 115] =
      Outcome.returned
        ((some { Stdout := [[76, 111, 103, 103, 105, 110, 103, 32, 105, 110, 46, 46, 46], prompt],
                 Stderr := [] }, none),
          { stdin := [[108, 111, 103, 105, 110, 32, 97, 110, 111, 110, 121, 109, 111, 117, 115]],
            arrivals := [] }) := by
    decide
  refine ⟨heval, ?_⟩
  rintro ⟨out, s2, hexec, hout, -⟩
  rw [heval] at hexec
  simp only [Outcome.returned.injEq, Prod.mk.injEq, Option.some.injEq] at hexec
  rw [← hexec.1.1] at hout
  simp at hout

/-- C3 (amended): when the stdout strings `t1..tn`, none ending with the prompt
marker, arrive followed by the prompt marker and no stderr string arrives before
it, `Exec` sends the command, succeeds, and returns an Output whose Stdout is
`[t1, ..., tn, prompt marker]` and whose Stderr is empty. -/
theorem Exec_stdout_lines_then_prompt (stdin : List GoString) (command : GoString)
    (ts : List GoString) (post : List Arrival)
    (hts : ∀ t ∈ ts, HasSuffix t prompt = false) :
    SessionIO.Exec
        { stdin := stdin, arrivals := ts.map Arrival.stdout ++ Arrival.stdout prompt :: post }
        command =
      Outcome.returned
        ((some { Stdout := ts ++ [prompt], Stderr := [] }, none),
          { stdin := stdin ++ [command], arrivals := post }) := by
  have hpre : ∀ t, Arrival.stdout t ∈ ts.map Arrival.stdout → HasSuffix t prompt = false := by
    intro t ht
    obtain ⟨u, hu, heq⟩ := List.mem_map.1 ht
    cases heq
    exact hts t hu
  rw [Exec_returns stdin command prompt (ts.map Arrival.stdout) post hpre (by decide)]
  simp [stdoutTokens_map_stdout, stderrTokens_map_stdout]

/-- Witness for C3 (amended): two stdout lines, the prompt marker, one later arrival. -/
theorem Exec_stdout_lines_then_prompt_witness :
    SessionIO.Exec
        { stdin := [],
          arrivals := [[76, 111, 103], [105, 110]].map Arrival.stdout ++
            Arrival.stdout prompt :: [Arrival.stdout [120]] }
        [108, 111, 103, 105, 110] =
      Outcome.returned
        ((some { Stdout := [[76, 111, 103], [105, 110]] ++ [prompt], Stderr := [] }, none),
          { stdin := [] ++ [[108, 111, 103, 105, 110]], arrivals := [Arrival.stdout [120]] }) :=
  Exec_stdout_lines_then_prompt [] [108, 111, 103, 105, 110] [[76, 111, 103], [105, 110]]
    [Arrival.stdout [120]] (by decide)

/-- C4: when the arrivals `pre` (no stdout string among them ending with the prompt
marker) and then a stdout string ending with the marker are consumed, `Exec`
returns, and it fails exactly when `pre` holds a stderr string; when it fails it
returns no Output and the error text is `failed to execute command: ` followed by
the stderr strings of `pre`, in arrival order, joined by newlines; when it succeeds
it returns the gathered Output and no error. -/
theorem Exec_fails_iff_stderr_arrived (stdin : List GoString) (command p : GoString)
    (pre post : List Arrival)
    (hpre : ∀ t, Arrival.stdout t ∈ pre → HasSuffix t prompt = false)
    (hp : HasSuffix p prompt = true) :
    ∃ out err,
      SessionIO.Exec { stdin := stdin, arrivals := pre ++ Arrival.stdout p :: post } command =
        Outcome.returned ((out, err), { stdin := stdin ++ [command], arrivals := post }) ∧
      (err ≠ none ↔ stderrTokens pre ≠ []) ∧
      (err ≠ none →
        out = none ∧
        err = some (failedToExecuteCommand ++ [newline].intercalate (stderrTokens pre))) ∧
      (err = none →
        out = some { Stdout := stdoutTokens pre ++ [p], Stderr := [] }) := by
  have h := Exec_returns stdin command p pre post hpre hp
  by_cases he : stderrTokens pre = []
  · refine ⟨some { Stdout := stdoutTokens pre ++ [p], Stderr := [] }, none, ?_, ?_, ?_, ?_⟩
    · rw [h]
      simp [he]
    · simp [he]
    · simp
    · simp
  · have hlen : (stderrTokens pre).length ≠ 0 := fun h0 => he (List.length_eq_zero.1 h0)
    refine ⟨none, some (failedToExecuteCommand ++ [newline].intercalate (stderrTokens pre)),
      ?_, ?_, ?_, ?_⟩
    · rw [h, if_pos hlen, Join_eq_intercalate]
      rfl
    · simp [he]
    · simp
    · simp

/-- Witness for C4: one stdout line and two stderr lines before the prompt marker. -/
theorem Exec_fails_iff_stderr_arrived_witness :
    ∃ out err,
      SessionIO.Exec
          { stdin := [],
            arrivals := [Arrival.stdout [111], Arrival.stderr [69, 82], Arrival.stderr [82]] ++
              Arrival.stdout prompt :: [] }
          [113] =
        Outcome.returned ((out, err), { stdin := [] ++ [[113]], arrivals := [] }) ∧
      (err ≠ none ↔
        stderrTokens [Arrival.stdout [111], Arrival.stderr [69, 82], Arrival.stderr [82]] ≠ []) ∧
      (err ≠ none →
        out = none ∧
        err = some (failedToExecuteCommand ++ [newline].intercalate
          (stderrTokens [Arrival.stdout [111], Arrival.stderr [69, 82], Arrival.stderr [82]]))) ∧
      (err = none →
        out = some
          { Stdout :=
              stdoutTokens [Arrival.stdout [111], Arrival.stderr [69, 82], Arrival.stderr [82]] ++
                [prompt],
            Stderr := [] }) :=
  Exec_fails_iff_stderr_arrived [] [113] prompt
    [Arrival.stdout [111], Arrival.stderr [69, 82], Arrival.stderr [82]] []
    (by
      intro t ht
      simp only [List.mem_cons, Arrival.stdout.injEq, List.mem_singleton, reduceCtorEq,
        List.not_mem_nil, or_false] at ht
      subst ht
      decide)
    (by decide)

/-- C5: for every suffix and every sequence of arrivals that holds a stdout string
ending with the suffix, the sequence splits as `pre`, a stdout string `p` ending
with the suffix, `post`, with no stdout string of `pre` ending with the suffix;
`WaitForSuffix` consumes `pre` and `p` and leaves `post`; it returns, without error,
the Output whose Stdout is the stdout strings of `pre` followed by `p` and whose
Stderr is the stderr strings of `pre`, whether or not those end with the suffix. -/
theorem WaitForSuffix_consumes_to_first_match (stdin : List GoString) (sfx : GoString)
    (arrivals : List Arrival)
    (h : ∃ t, Arrival.stdout t ∈ arrivals ∧ HasSuffix t sfx = true) :
    ∃ pre p post,
      arrivals = pre ++ Arrival.stdout p :: post ∧
      (∀ t, Arrival.stdout t ∈ pre → HasSuffix t sfx = false) ∧
      (∀ t ∈ stdoutTokens pre, HasSuffix t sfx = false) ∧
      HasSuffix p sfx = true ∧
      SessionIO.WaitForSuffix { stdin := stdin, arrivals := arrivals } sfx =
        Outcome.returned
          ((some { Stdout := stdoutTokens pre ++ [p], Stderr := stderrTokens pre }, none),
            { stdin := stdin, arrivals := post }) := by
  obtain ⟨pre, p, post, rfl, hpre, hp⟩ := first_match_split sfx arrivals h
  refine ⟨pre, p, post, rfl, hpre, ?_, hp, WaitForSuffix_stops stdin sfx p pre post hpre hp⟩
  intro t ht
  simp only [stdoutTokens, List.mem_filterMap] at ht
  obtain ⟨a, ha, hat⟩ := ht
  cases a with
  | stdout u =>
    simp only [Option.some.injEq] at hat
    subst hat
    exact hpre u ha
  | stderr u => simp at hat

/-- Witness for C5: waiting for the suffix `>`, with a stderr string ending in `>` first. -/
theorem WaitForSuffix_consumes_to_first_match_witness :
    ∃ pre p post,
      [Arrival.stdout [97], Arrival.stderr [98, 62], Arrival.stdout [99, 62],
          Arrival.stdout [100, 62]] = pre ++ Arrival.stdout p :: post ∧
      (∀ t, Arrival.stdout t ∈ pre → HasSuffix t [62] = false) ∧
      (∀ t ∈ stdoutTokens pre, HasSuffix t [62] = false) ∧
      HasSuffix p [62] = true ∧
      SessionIO.WaitForSuffix
          { stdin := [],
            arrivals := [Arrival.stdout [97], Arrival.stderr [98, 62], Arrival.stdout [99, 62],
              Arrival.stdout [100, 62]] } [62] =
        Outcome.returned
          ((some { Stdout := stdoutTokens pre ++ [p], Stderr := stderrTokens pre }, none),
            { stdin := [], arrivals := post }) :=
  WaitForSuffix_consumes_to_first_match [] [62]
    [Arrival.stdout [97], Arrival.stderr [98, 62], Arrival.stdout [99, 62],
      Arrival.stdout [100, 62]]
    ⟨[99, 62], by simp, by decide⟩

/-! ## The scanner of `copyLinesToChan` -/

theorem Read_bound (r : List GoString) (space : Nat) :
    (Read r space).1.length + chunkSize (Read r space).2.2 ≤ chunkSize r ∧
    (Read r space).1.length ≤ space := by
  cases r with
  | nil => simp [Read, chunkSize]
  | cons c cs =>
    by_cases h : List.drop (min space c.length) c = []
    · simp [Read, chunkSize, h]
    · simp [Read, chunkSize, h]
      omega

/-- What the read loop takes from the reader it adds to the buffer, within the free
space, and without an error it has read at least one byte. -/
theorem readLoop_bound (space : Nat) (left : Nat) (r : List GoString) :
    (readLoop space left r).1.length + chunkSize (readLoop space left r).2.2 ≤ chunkSize r ∧
    (readLoop space left r).1.length ≤ space ∧
    ((readLoop space left r).2.1 = none → 0 < (readLoop space left r).1.length) := by
  induction left generalizing r with
  | zero =>
    have hb := Read_bound r space
    rcases hR : Read r space with ⟨p, eof, r1⟩
    rw [hR] at hb
    cases eof <;> by_cases hp : 0 < p.length <;> simp [readLoop, hR, hp] <;> simp at hb <;> omega
  | succ left ih =>
    have hb := Read_bound r space
    rcases hR : Read r space with ⟨p, eof, r1⟩
    rw [hR] at hb
    cases eof
    · by_cases hp : 0 < p.length
      · simp [readLoop, hR, hp]
        simp at hb
        omega
      · have h := ih r1
        simp only [readLoop, hR, hp, if_false]
        simp at hb
        exact ⟨by omega, h.2⟩
    · simp [readLoop, hR]
      simp at hb
      omega

theorem MaxScanTokenSize_eq : MaxScanTokenSize = 65536 := rfl

theorem maxInt_half : maxInt / 2 = 4611686018427387903 := by
  norm_num [maxInt]

/-- Reading goes on to another pass, and with no error set before it the bound on
the passes to come goes down. -/
theorem readInput_again (s : Scanner) :
    ∃ s1, s.readInput = Pass.again s1 ∧ (s.err = none → s1.passBound < s.passBound) := by
  have hb := readLoop_bound (s.bufLen - (s.start + s.data.length)) maxConsecutiveEmptyReads s.r
  rcases hrl : readLoop (s.bufLen - (s.start + s.data.length)) maxConsecutiveEmptyReads s.r
    with ⟨p, e, r1⟩
  rw [hrl] at hb
  simp only at hb
  cases e with
  | none =>
    refine ⟨{ s with r := r1, data := s.data ++ p }, by simp [Scanner.readInput, hrl], ?_⟩
    intro herr
    have hp := hb.2.2 rfl
    simp [Scanner.passBound, herr]
    omega
  | some e =>
    refine ⟨Scanner.setErr { s with r := r1, data := s.data ++ p } e,
      by simp [Scanner.readInput, hrl], ?_⟩
    intro herr
    simp [Scanner.passBound, Scanner.setErr, herr]
    omega

/-- The two ways the second half of a pass goes: `Scan` returns `false` (at an error
already set, or with `ErrTooLong` when the buffer is full at its largest size), or a
read follows, into a buffer with free space. -/
theorem needMore_cases (s : Scanner) :
    (∃ s1, s.needMore = Pass.done false s1 ∧
      (s.err = none → s.bufLen ≤ MaxScanTokenSize → s.start + s.data.length ≤ s.bufLen →
        s.data.length = MaxScanTokenSize)) ∨
    (∃ s1, s.needMore = Scanner.readInput s1 ∧ s.err = none ∧ s1.r = s.r ∧
      s1.data = s.data ∧ s1.err = none ∧
      (s.bufLen ≤ MaxScanTokenSize → s.start + s.data.length ≤ s.bufLen →
        s1.start + s1.data.length < s1.bufLen ∧ s1.bufLen ≤ MaxScanTokenSize)) := by
  have hM := MaxScanTokenSize_eq
  have hI := maxInt_half
  by_cases herr : s.err = none
  · have hne : ¬ s.err ≠ none := not_not.2 herr
    by_cases hshift : s.start > 0 ∧ (s.start + s.data.length = s.bufLen ∨ s.start > s.bufLen / 2)
    · by_cases hfull : 0 + s.data.length = s.bufLen
      · by_cases hbig : s.bufLen ≥ MaxScanTokenSize ∨ s.bufLen > maxInt / 2
        · left
          refine ⟨Scanner.setErr { s with start := 0 } ScanError.ErrTooLong, ?_, ?_⟩
          · simp only [Scanner.needMore, if_neg hne, if_pos hshift, if_pos hfull, if_pos hbig]
          · intro _ h1 h2
            omega
        · right
          refine ⟨{ s with
              bufLen := min (if s.bufLen * 2 = 0 then startBufSize else s.bufLen * 2)
                MaxScanTokenSize,
              start := 0 }, ?_, herr, rfl, rfl, herr, ?_⟩
          · simp only [Scanner.needMore, if_neg hne, if_pos hshift, if_pos hfull, if_neg hbig]
          · intro h1 h2
            simp only [startBufSize]
            split_ifs <;> omega
      · right
        refine ⟨{ s with start := 0 }, ?_, herr, rfl, rfl, herr, ?_⟩
        · simp only [Scanner.needMore, if_neg hne, if_pos hshift, if_neg hfull]
        · intro h1 h2
          simp only
          omega
    · by_cases hfull : s.start + s.data.length = s.bufLen
      · by_cases hbig : s.bufLen ≥ MaxScanTokenSize ∨ s.bufLen > maxInt / 2
        · left
          refine ⟨Scanner.setErr s ScanError.ErrTooLong, ?_, ?_⟩
          · simp only [Scanner.needMore, if_neg hne, if_neg hshift, if_pos hfull, if_pos hbig]
          · intro _ h1 h2
            omega
        · right
          refine ⟨{ s with
              bufLen := min (if s.bufLen * 2 = 0 then startBufSize else s.bufLen * 2)
                MaxScanTokenSize,
              start := 0 }, ?_, herr, rfl, rfl, herr, ?_⟩
          · simp only [Scanner.needMore, if_neg hne, if_neg hshift, if_pos hfull, if_neg hbig]
          · intro h1 h2
            simp only [startBufSize]
            split_ifs <;> omega
      · right
        refine ⟨s, ?_, herr, rfl, rfl, herr, ?_⟩
        · simp only [Scanner.needMore, if_neg hne, if_neg hshift, if_neg hfull]
        · intro h1 h2
          omega
  · left
    exact ⟨{ s with start := 0, data := [] }, by simp only [Scanner.needMore, if_pos herr],
      fun h => absurd h herr⟩

theorem needMore_progress (s : Scanner) :
    (∀ s1, s.needMore = Pass.again s1 → s1.passBound < s.passBound) ∧
    (∀ s1, s.needMore ≠ Pass.done true s1) := by
  rcases needMore_cases s with ⟨s0, h0, -⟩ | ⟨s0, h0, herr, hr, hd, herr0, -⟩
  · rw [h0]
    exact ⟨fun s1 h => (by cases h), fun s1 h => (by cases h)⟩
  · obtain ⟨s2, h2, hlt⟩ := readInput_again s0
    rw [h0, h2]
    have hb : s0.passBound = s.passBound := by
      simp [Scanner.passBound, hr, hd, herr, herr0]
    refine ⟨fun s1 h => ?_, fun s1 h => (by cases h)⟩
    cases h
    rw [← hb]
    exact hlt herr0

/-- A pass at the split function, when that returns without error. -/
theorem pass_split (s : Scanner) (advance : Int) (token : Option GoString)
    (hc : s.data.length > 0 ∨ s.err ≠ none)
    (h : splitFunc s.data (decide (s.err ≠ none)) = some ⟨advance, token, none⟩) :
    s.pass =
      if advance < 0 then
        Pass.done false (s.setErr ScanError.ErrNegativeAdvance)
      else if advance > (s.data.length : Int) then
        Pass.done false (s.setErr ScanError.ErrAdvanceTooFar)
      else if token ≠ none then
        Pass.done true
          { s with start := s.start + advance.toNat, data := s.data.drop advance.toNat,
                   token := token }
      else
        Scanner.needMore
          { s with start := s.start + advance.toNat, data := s.data.drop advance.toNat,
                   token := token } := by
  simp only [Scanner.pass, if_pos hc, h]

/-- A pass over a buffer with a newline and no prompt marker ends `Scan` with the
first line as token. -/
theorem pass_line (s : Scanner) {n : Nat} (hn : indexOf? [newline] s.data = some n)
    (hp : indexOf? prompt s.data = none) :
    s.pass = Pass.done true
      { s with start := s.start + (n + 1), data := s.data.drop (n + 1),
               token := some (s.data.take n) } := by
  obtain ⟨-, h2, -⟩ := (indexOf_some_iff _ _ _).1 hn
  have hlen := h2.length_le
  simp at hlen
  have hc : s.data.length > 0 ∨ s.err ≠ none := Or.inl (by omega)
  rw [pass_split s _ _ hc (splitFunc_newline_only _ hn hp)]
  have h1 : ¬ ((n : Int) + 1 < 0) := by omega
  have h2 : ¬ ((n : Int) + 1 > (s.data.length : Int)) := by omega
  have h3 : ((n : Int) + 1).toNat = n + 1 := by omega
  simp [h1, h2, h3]

/-- A pass over a buffer without a newline goes on to the second half of the body
with the buffer as it was. -/
theorem pass_newline_free (s : Scanner) (hnl : newline ∉ s.data) :
    ∃ s1, s.pass = Scanner.needMore s1 ∧ s1.r = s.r ∧ s1.bufLen = s.bufLen ∧
      s1.start = s.start ∧ s1.data = s.data ∧ s1.err = s.err := by
  by_cases hc : s.data.length > 0 ∨ s.err ≠ none
  · have hsplit := splitFunc_neither (decide (s.err ≠ none))
      ((indexOf_newline_none_iff s.data).2 hnl) (indexOf_prompt_none_of_newline_free hnl)
    refine ⟨{ s with start := s.start + (0 : Int).toNat, data := s.data.drop (0 : Int).toNat,
                     token := none }, ?_, rfl, rfl, by simp, by simp, rfl⟩
    rw [pass_split s _ _ hc hsplit]
    simp
  · exact ⟨s, by simp only [Scanner.pass, if_neg hc], rfl, rfl, rfl, rfl, rfl⟩

/-- Every pass that does not end the loop brings the bound on the passes down. -/
theorem pass_progress (s : Scanner) :
    (∀ s1, s.pass = Pass.again s1 → s1.passBound < s.passBound) ∧
    (∀ s1, s.pass = Pass.done true s1 → s1.passBound < s.passBound) := by
  by_cases hc : s.data.length > 0 ∨ s.err ≠ none
  · have key : ∀ (advance : Int) (token : Option GoString),
        splitFunc s.data (decide (s.err ≠ none)) = some ⟨advance, token, none⟩ →
        (token ≠ none → 0 < advance) →
        (∀ s1, s.pass = Pass.again s1 → s1.passBound < s.passBound) ∧
        (∀ s1, s.pass = Pass.done true s1 → s1.passBound < s.passBound) := by
      intro advance token h hpos
      rw [pass_split s advance token hc h]
      by_cases h1 : advance < 0
      · simp only [if_pos h1]
        exact ⟨fun s1 h => (by cases h), fun s1 h => (by cases h)⟩
      · by_cases h2 : advance > (s.data.length : Int)
        · simp only [if_neg h1, if_pos h2]
          exact ⟨fun s1 h => (by cases h), fun s1 h => (by cases h)⟩
        · by_cases h3 : token ≠ none
          · simp only [if_neg h1, if_neg h2, if_pos h3]
            refine ⟨fun s1 h => (by cases h), fun s1 h => ?_⟩
            cases h
            have := hpos h3
            simp [Scanner.passBound]
            omega
          · simp only [if_neg h1, if_neg h2, if_neg h3]
            obtain ⟨ha, hd⟩ := needMore_progress
              { s with start := s.start + advance.toNat, data := s.data.drop advance.toNat,
                       token := token }
            refine ⟨fun s1 h => ?_, fun s1 h => absurd h (hd s1)⟩
            have := ha s1 h
            simp [Scanner.passBound] at this ⊢
            omega
    rcases splitFunc_cases s.data (decide (s.err ≠ none)) with
      ⟨-, -, h⟩ | ⟨n, -, -, h⟩ | ⟨-, h⟩ | ⟨k, -, h⟩
    · exact key _ _ h (fun h0 => absurd rfl h0)
    · exact key _ _ h (fun _ => by omega)
    · exact key _ _ h (fun _ => by simp [prompt])
    · exact key _ _ h (fun _ => by omega)
  · have hp : s.pass = s.needMore := by simp only [Scanner.pass, if_neg hc]
    rw [hp]
    obtain ⟨ha, hd⟩ := needMore_progress s
    exact ⟨ha, fun s1 h => absurd h (hd s1)⟩

/-- Any fuel above the bound gives the same run: the loop ends because `Scan`
returns `false`, not because the fuel is used up. -/
theorem pump_fuel (n m : Nat) (s : Scanner) (hn : s.passBound < n) (hm : s.passBound < m) :
    pump n s = pump m s := by
  induction n generalizing m s with
  | zero => omega
  | succ n ih =>
    cases m with
    | zero => omega
    | succ m =>
      obtain ⟨ha, hd⟩ := pass_progress s
      simp only [pump]
      cases hpass : s.pass with
      | panic => rfl
      | again s1 =>
        have := ha s1 hpass
        exact ih m s1 (by omega) (by omega)
      | done ok s1 =>
        cases ok with
        | false => rfl
        | true =>
          have := hd s1 hpass
          simp only [ih m s1 (by omega) (by omega)]

/-! ## Lines of a stream without a prompt marker -/

theorem scannedLines_newline_free (l : GoString) (hnl : newline ∉ l) :
    ∀ acc : GoString, scannedLines acc l = [] := by
  induction l with
  | nil => intro acc; rfl
  | cons b bs ih =>
    intro acc
    have hb : b ≠ newline := fun h => hnl (by simp [h])
    have hbs : newline ∉ bs := fun h => hnl (List.mem_cons_of_mem _ h)
    by_cases hlong : acc.length + 1 ≥ MaxScanTokenSize
    · simp [scannedLines, hb, hlong]
    · simp only [scannedLines, hb, hlong, if_false]
      exact ih hbs _

theorem scannedLines_long (l t : GoString) (hnl : newline ∉ l) :
    ∀ acc : GoString, acc.length < MaxScanTokenSize →
      acc.length + l.length ≥ MaxScanTokenSize → scannedLines acc (l ++ t) = [] := by
  induction l with
  | nil =>
    intro acc h1 h2
    simp at h2
    omega
  | cons b bs ih =>
    intro acc h1 h2
    have hb : b ≠ newline := fun h => hnl (by simp [h])
    have hbs : newline ∉ bs := fun h => hnl (List.mem_cons_of_mem _ h)
    by_cases hlong : acc.length + 1 ≥ MaxScanTokenSize
    · simp [scannedLines, hb, hlong]
    · simp only [List.cons_append, scannedLines, hb, hlong, if_false]
      refine ih hbs _ (by simp; omega) ?_
      simp at h2 ⊢
      omega

theorem scannedLines_line (l t : GoString) (hnl : newline ∉ l) :
    ∀ acc : GoString, acc.length + l.length < MaxScanTokenSize →
      scannedLines acc (l ++ newline :: t) = (acc ++ l) :: scannedLines [] t := by
  induction l with
  | nil =>
    intro acc _
    simp [scannedLines]
  | cons b bs ih =>
    intro acc h1
    have hb : b ≠ newline := fun h => hnl (by simp [h])
    have hbs : newline ∉ bs := fun h => hnl (List.mem_cons_of_mem _ h)
    have hlong : ¬ acc.length + 1 ≥ MaxScanTokenSize := by
      simp at h1
      omega
    have e := ih hbs (acc ++ [b]) (by simp at h1 ⊢; omega)
    simp only [List.cons_append, scannedLines, hb, hlong, if_false]
    simpa using e

/-- Before the first newline of a buffer there is no newline. -/
theorem newline_free_before_first {data : GoString} {n : Nat}
    (hn : indexOf? [newline] data = some n) : newline ∉ data.take n := by
  intro hmem
  obtain ⟨-, -, hfirst⟩ := (indexOf_some_iff _ _ _).1 hn
  obtain ⟨j, hj⟩ := List.mem_iff_getElem?.1 hmem
  have hjn : j < n := by
    by_contra hge
    rw [List.getElem?_take_eq_none (by omega)] at hj
    cases hj
  rw [List.getElem?_take_of_lt hjn] at hj
  obtain ⟨hlt, hget⟩ := List.getElem?_eq_some.1 hj
  apply hfirst j hjn
  rw [List.drop_eq_getElem_cons hlt, hget]
  exact ⟨List.drop (j + 1) data, rfl⟩

/-- The first newline of a buffer splits it into the line before and the rest. -/
theorem split_at_first_newline {data : GoString} {n : Nat}
    (hn : indexOf? [newline] data = some n) :
    data = data.take n ++ newline :: data.drop (n + 1) ∧ n + 1 ≤ data.length := by
  obtain ⟨-, ⟨t, ht⟩, -⟩ := (indexOf_some_iff _ _ _).1 hn
  have hlen : (List.drop n data).length = ([newline] ++ t).length := by rw [ht]
  simp at hlen
  have hlt : n < data.length := by omega
  have hd : newline :: t = data[n] :: List.drop (n + 1) data :=
    ht.trans (List.drop_eq_getElem_cons hlt)
  have hd := List.cons.inj hd
  refine ⟨?_, by omega⟩
  calc data = data.take n ++ data.drop n := (List.take_append_drop n data).symm
    _ = data.take n ++ ([newline] ++ t) := by rw [ht]
    _ = data.take n ++ newline :: data.drop (n + 1) := by rw [hd.2]; rfl

theorem readLoop_nil (space left : Nat) :
    readLoop space left [] = ([], some ScanError.EOF, []) := by
  cases left <;> simp [readLoop, Read]

theorem readLoop_chunk (space left : Nat) (c : GoString) (cs : List GoString)
    (hc : c ≠ []) (hs : 0 < space) :
    readLoop space left (c :: cs) =
      (c.take (min space c.length), none,
        if c.drop (min space c.length) = [] then cs else c.drop (min space c.length) :: cs) := by
  have hclen : 0 < c.length := List.length_pos.2 hc
  have hp : 0 < (List.take (min space c.length) c).length := by
    simp
    omega
  cases left <;> simp only [readLoop, Read, hp, if_true]

/-- A read into free space from a reader without empty chunks: the bytes move from
the reader to the buffer, or the reader is at its end and `io.EOF` is set. -/
theorem readInput_room (s : Scanner) (herr : s.err = none) (hne : ∀ c ∈ s.r, c ≠ [])
    (hroom : s.start + s.data.length < s.bufLen) :
    ∃ s3, s.readInput = Pass.again s3 ∧ s3.bufLen = s.bufLen ∧
      s3.start + s3.data.length ≤ s3.bufLen ∧
      (s3.err = none ∨ (s3.err = some ScanError.EOF ∧ s3.r = [])) ∧
      (∀ c ∈ s3.r, c ≠ []) ∧
      s3.data ++ s3.r.flatten = s.data ++ s.r.flatten := by
  cases hr : s.r with
  | nil =>
    refine ⟨{ s with r := [], data := s.data ++ [], err := some ScanError.EOF }, ?_, rfl, ?_,
      Or.inr ⟨rfl, rfl⟩, by simp, by simp⟩
    · simp [Scanner.readInput, hr, readLoop_nil, Scanner.setErr, herr]
    · simp
      omega
  | cons c cs =>
    have hc : c ≠ [] := hne c (by simp [hr])
    have hcs : ∀ c1 ∈ cs, c1 ≠ [] := fun c1 h1 => hne c1 (by simp [hr, h1])
    have hs : 0 < s.bufLen - (s.start + s.data.length) := by omega
    refine ⟨{ s with
        r := if c.drop (min (s.bufLen - (s.start + s.data.length)) c.length) = [] then cs
          else c.drop (min (s.bufLen - (s.start + s.data.length)) c.length) :: cs,
        data := s.data ++ c.take (min (s.bufLen - (s.start + s.data.length)) c.length) },
      ?_, rfl, ?_, Or.inl herr, ?_, ?_⟩
    · simp [Scanner.readInput, hr, readLoop_chunk _ _ c cs hc hs]
    · simp
      omega
    · intro c1 h1
      simp only at h1
      split_ifs at h1 with hd
      · exact hcs c1 h1
      · rcases List.mem_cons.1 h1 with rfl | h1
        · exact hd
        · exact hcs c1 h1
    · simp only
      split_ifs with hd
      · have hcc : c.take (min (s.bufLen - (s.start + s.data.length)) c.length) = c := by
          have := List.take_append_drop (min (s.bufLen - (s.start + s.data.length)) c.length) c
          rw [hd, List.append_nil] at this
          exact this
        simp [hcc]
      · simp only [List.flatten_cons, List.append_assoc]
        rw [← List.append_assoc (List.take _ c), List.take_append_drop]

/-- On a stream without a prompt marker, read in pieces of any size, the pump sends
the newline-terminated lines up to the first run of `MaxScanTokenSize` bytes without
a newline. A scanner state is as `Scan` leaves it: the unconsumed bytes lie within
the buffer, the buffer is no longer than `MaxScanTokenSize`, and `err` is unset or is
`io.EOF` at the end of the reader. -/
theorem pump_scannedLines (fuel : Nat) :
    ∀ s : Scanner, s.passBound < fuel →
      s.start + s.data.length ≤ s.bufLen → s.bufLen ≤ MaxScanTokenSize →
      (s.err = none ∨ (s.err = some ScanError.EOF ∧ s.r = [])) →
      (∀ c ∈ s.r, c ≠ []) →
      ¬ prompt <:+: s.data ++ s.r.flatten →
      pump fuel s = scannedLines [] (s.data ++ s.r.flatten) := by
  induction fuel with
  | zero => intro s h; omega
  | succ fuel ih =>
    intro s hfuel hcap hmax herr hne hpf
    have hM := MaxScanTokenSize_eq
    obtain ⟨hagain, hdone⟩ := pass_progress s
    by_cases hnl : newline ∈ s.data
    · cases hn : indexOf? [newline] s.data with
      | none => exact absurd hnl ((indexOf_newline_none_iff _).1 hn)
      | some n =>
        have hp : indexOf? prompt s.data = none :=
          (indexOf_none_iff _ _).2 fun h => hpf (h.trans (List.prefix_append _ _).isInfix)
        have hpass := pass_line s hn hp
        obtain ⟨hsplit, hlen⟩ := split_at_first_newline hn
        have hlt := hdone _ hpass
        have hcontent : s.data ++ s.r.flatten =
            s.data.take n ++ newline :: (s.data.drop (n + 1) ++ s.r.flatten) := by
          conv_lhs => rw [hsplit]
          simp only [List.append_assoc, List.cons_append]
        have hpf1 : ¬ prompt <:+: s.data.drop (n + 1) ++ s.r.flatten := fun h =>
          hpf (hcontent ▸ h.trans ⟨s.data.take n ++ [newline], [], by simp⟩)
        have hrec := ih
          { s with start := s.start + (n + 1), data := s.data.drop (n + 1),
                   token := some (s.data.take n) }
          (by omega) (by simp; omega) hmax herr hne hpf1
        have hErr : Scanner.Err
            { s with start := s.start + (n + 1), data := s.data.drop (n + 1),
                     token := some (s.data.take n) } = none := by
          rcases herr with h | ⟨h, -⟩ <;> simp [Scanner.Err, h]
        simp only [pump, hpass, hErr, if_true]
        rw [hrec, hcontent,
          scannedLines_line _ _ (newline_free_before_first hn) [] (by simp; omega)]
        simp [Scanner.Text]
    · obtain ⟨s1, hpass, hr1, hb1, hs1, hd1, he1⟩ := pass_newline_free s hnl
      rcases needMore_cases s1 with ⟨s2, h2, hbig⟩ | ⟨s2, h2, herr1, hr2, hd2, herr2, hroom⟩
      · have hleft : pump (fuel + 1) s = [] := by simp only [pump, hpass, h2]
        rw [hleft]
        rcases herr with h | ⟨-, h⟩
        · have hfull := hbig (he1.trans h) (hb1 ▸ hmax) (by rw [hs1, hd1, hb1]; exact hcap)
          rw [hd1] at hfull
          exact (scannedLines_long _ _ hnl [] (by simp [hM]) (by simp; omega)).symm
        · rw [h, List.flatten_nil, List.append_nil]
          exact (scannedLines_newline_free _ hnl []).symm
      · obtain ⟨hroom1, hmax2⟩ := hroom (hb1 ▸ hmax) (by rw [hs1, hd1, hb1]; exact hcap)
        have hne2 : ∀ c ∈ s2.r, c ≠ [] := by
          rw [hr2, hr1]
          exact hne
        obtain ⟨s3, h3, hb3, hcap3, herr3, hne3, hcont3⟩ := readInput_room s2 herr2 hne2 hroom1
        have hpassAll : s.pass = Pass.again s3 := by rw [hpass, h2, h3]
        have hlt := hagain s3 hpassAll
        have hcont : s3.data ++ s3.r.flatten = s.data ++ s.r.flatten := by
          rw [hcont3, hd2, hd1, hr2, hr1]
        have hrec := ih s3 (by omega) hcap3 (hb3 ▸ hmax2) herr3 hne3 (hcont ▸ hpf)
        simp only [pump, hpassAll]
        rw [hrec, hcont]

/-- What `scannedLines` gives: the successive newline-terminated pieces of the
stream, each without a newline and shorter than `MaxScanTokenSize`, up to a rest
whose first `MaxScanTokenSize` bytes hold no newline. -/
theorem scannedLines_decompose (l : GoString) :
    ∀ acc : GoString, newline ∉ acc → acc.length < MaxScanTokenSize →
      ∃ tail, acc ++ l = ((scannedLines acc l).map (· ++ [newline])).flatten ++ tail ∧
        (∀ t ∈ scannedLines acc l, newline ∉ t ∧ t.length < MaxScanTokenSize) ∧
        newline ∉ tail.take MaxScanTokenSize := by
  induction l with
  | nil =>
    intro acc hacc _
    exact ⟨acc, by simp [scannedLines], by simp [scannedLines],
      fun h => hacc (List.mem_of_mem_take h)⟩
  | cons b bs ih =>
    intro acc hacc hlen
    by_cases hb : b = newline
    · obtain ⟨tail, h1, h2, h3⟩ := ih [] (by simp) (by simp [MaxScanTokenSize_eq])
      refine ⟨tail, ?_, ?_, h3⟩
      · simp only [scannedLines, hb, if_true, List.map_cons, List.flatten_cons]
        rw [List.nil_append] at h1
        rw [List.append_assoc, List.append_assoc, ← h1]
        simp
      · intro t ht
        simp only [scannedLines, hb, if_true, List.mem_cons] at ht
        rcases ht with rfl | ht
        · exact ⟨hacc, hlen⟩
        · exact h2 t ht
    · by_cases hlong : acc.length + 1 ≥ MaxScanTokenSize
      · refine ⟨acc ++ b :: bs, by simp [scannedLines, hb, hlong],
          by simp [scannedLines, hb, hlong], ?_⟩
        have htake : List.take MaxScanTokenSize (acc ++ b :: bs) = acc ++ [b] := by
          have hl : MaxScanTokenSize = (acc ++ [b]).length := by simp; omega
          rw [hl, show acc ++ b :: bs = (acc ++ [b]) ++ bs by simp, List.take_left]
        rw [htake]
        simp only [List.mem_append, List.mem_singleton, not_or]
        exact ⟨hacc, fun h => hb h.symm⟩
      · have hfree : newline ∉ acc ++ [b] := by
          simp only [List.mem_append, List.mem_singleton, not_or]
          exact ⟨hacc, fun h => hb h.symm⟩
        obtain ⟨tail, h1, h2, h3⟩ := ih (acc ++ [b]) hfree (by simp; omega)
        refine ⟨tail, ?_, ?_, h3⟩
        · simp only [scannedLines, hb, hlong, if_false]
          rw [← h1]
          simp
        · intro t ht
          simp only [scannedLines, hb, hlong, if_false] at ht
          exact h2 t ht

theorem flatten_map_bytes (s : GoString) : (s.map fun b => [b]).flatten = s := by
  induction s with
  | nil => rfl
  | cons b bs ih => simp [ih]

/-- The pump over any reader without empty chunks whose bytes hold no prompt marker. -/
theorem copyLinesToChan_scannedLines (chunks : List GoString) (hne : ∀ c ∈ chunks, c ≠ [])
    (hp : ¬ prompt <:+: chunks.flatten) :
    copyLinesToChan chunks = scannedLines [] chunks.flatten := by
  have h := pump_scannedLines ((NewScanner chunks).passBound + 1) (NewScanner chunks)
    (by omega) (by simp [NewScanner]) (by simp [NewScanner]) (Or.inl rfl) hne
    (by simpa [NewScanner] using hp)
  simpa [copyLinesToChan, NewScanner] using h

/-! ## The pump claim -/

/-- C2 (as stated it fails): the fifteen bytes of the prompt marker offered whole
come out as one token, the marker; offered one byte at a time they come out as the
single token ESC `[1m`, cut at the newline inside the marker. -/
theorem copyLinesToChan_prompt_whole_ne_bytewise :
    copyLinesToChan [prompt] = [prompt] ∧
    copyLinesToChan (prompt.map fun b => [b]) = [[27, 91, 49, 109]] ∧
    copyLinesToChan [prompt] ≠ copyLinesToChan (prompt.map fun b => [b]) := by
  decide

/-- C2 (amended): for a byte string without an occurrence of the prompt marker, the
pump sends the same sequence of tokens whether the reader offers the whole string at
once or one byte at a time: the successive newline-terminated pieces of the string,
each without its newline and shorter than `MaxScanTokenSize`, up to a rest whose
first `MaxScanTokenSize` bytes hold no newline. -/
theorem copyLinesToChan_prompt_free_whole_eq_bytewise (s : GoString)
    (hp : ¬ prompt <:+: s) :
    copyLinesToChan [s] = copyLinesToChan (s.map fun b => [b]) ∧
    ∃ tail, s = ((copyLinesToChan [s]).map (· ++ [newline])).flatten ++ tail ∧
      (∀ t ∈ copyLinesToChan [s], newline ∉ t ∧ t.length < MaxScanTokenSize) ∧
      newline ∉ tail.take MaxScanTokenSize := by
  have hbytes : copyLinesToChan (s.map fun b => [b]) = scannedLines [] s := by
    have h := copyLinesToChan_scannedLines (s.map fun b => [b])
      (by intro c hc; obtain ⟨b, -, rfl⟩ := List.mem_map.1 hc; simp)
      (by rw [flatten_map_bytes]; exact hp)
    rw [h, flatten_map_bytes]
  have hwhole : copyLinesToChan [s] = scannedLines [] s := by
    by_cases hs : s = []
    · subst hs
      decide
    · have h := copyLinesToChan_scannedLines [s] (by simpa using hs) (by simpa using hp)
      simpa using h
  refine ⟨hwhole.trans hbytes.symm, ?_⟩
  rw [hwhole]
  simpa using scannedLines_decompose s [] (by simp) (by simp [MaxScanTokenSize_eq])

/-- Witness for C2 (amended): the string `a`, newline, newline, `b`, newline, `c`. -/
theorem copyLinesToChan_prompt_free_whole_eq_bytewise_witness :
    copyLinesToChan [[97, 10, 10, 98, 10, 99]] =
      copyLinesToChan (([97, 10, 10, 98, 10, 99] : GoString).map fun b => [b]) ∧
    ∃ tail, ([97, 10, 10, 98, 10, 99] : GoString) =
        ((copyLinesToChan [[97, 10, 10, 98, 10, 99]]).map (· ++ [newline])).flatten ++ tail ∧
      (∀ t ∈ copyLinesToChan [[97, 10, 10, 98, 10, 99]],
        newline ∉ t ∧ t.length < MaxScanTokenSize) ∧
      newline ∉ tail.take MaxScanTokenSize :=
  copyLinesToChan_prompt_free_whole_eq_bytewise [97, 10, 10, 98, 10, 99] (by decide)

end Steamcmd
